import Mathlib

/-!
Verification of `pagerank.py` against its specification.

The program is embedded shallowly:

* A Python dict `corpus` mapping each page to the set of pages it links to is
  modelled by `Corpus`: a finite set `pages` of keys together with a total
  function `links`; a dict lookup `corpus[page]` is modelled by first testing
  key membership, and an operation that would raise `KeyError` is modelled by
  an `Option` result being `none`.
* Python floats are idealised as exact rationals `ℚ`.
* `random.choice` / `random.choices` in `sample_pagerank` are modelled by
  explicit parameters: the starting page and a choice function that, given the
  transition distribution, returns the drawn page (the population of the draw
  is the list of corpus keys).
* The `while not converged` loop of `iterate_pagerank` is modelled by a
  fuel-indexed recursion returning `none` when fuel runs out; termination of
  the Python loop is the statement that some finite fuel returns `some`.
* The regex link extraction `re.findall(...)` in `crawl` is abstracted as a
  function parameter `findall : String → List String`; all crawl claims hold
  for every extraction result.  The directory listing `os.listdir` is
  modelled as a list of (filename, contents) pairs.
-/

/-- A corpus graph: the finite set of dict keys and, for each key, the set of
pages it links to (`corpus[page]` in the source). -/
structure Corpus (α : Type) where
  pages : Finset α
  links : α → Finset α

variable {α : Type} [DecidableEq α]

/-- Embedding of `transition_model(corpus, page, damping_factor)`.

`corpus[page]` raises `KeyError` when `page` is not a key, modelled by `none`.
In the non-dangling branch the statement
`probability_distribution[link] += damping_factor / len(links)` raises
`KeyError` when a link is not a key of the distribution dict (whose keys are
the corpus keys), modelled by the `links ⊆ c.pages` guard. -/
def transition_model (c : Corpus α) (page : α) (damping_factor : ℚ) :
    Option (α → ℚ) :=
  if page ∈ c.pages then
    let links := c.links page
    if links = ∅ then
      some (fun _ => 1 / (c.pages.card : ℚ))
    else if links ⊆ c.pages then
      some (fun p =>
        (1 - damping_factor) / (c.pages.card : ℚ) +
          if p ∈ links then damping_factor / (links.card : ℚ) else 0)
    else none
  else none

lemma transition_model_of_empty (c : Corpus α) (page : α) (d : ℚ)
    (hpage : page ∈ c.pages) (hempty : c.links page = ∅) :
    transition_model c page d = some (fun _ => 1 / (c.pages.card : ℚ)) := by
  simp [transition_model, hpage, hempty]

lemma transition_model_of_nonempty (c : Corpus α) (page : α) (d : ℚ)
    (hpage : page ∈ c.pages) (hne : c.links page ≠ ∅)
    (hsub : c.links page ⊆ c.pages) :
    transition_model c page d = some (fun p =>
      (1 - d) / (c.pages.card : ℚ) +
        if p ∈ c.links page then d / ((c.links page).card : ℚ) else 0) := by
  simp [transition_model, hpage, hne, hsub]

/-- C1: for a corpus graph (links closed under the key set), a page that is a
key, and damping in `[0,1]`, `transition_model` returns a distribution that is
uniform `1/N` when the page is dangling, and otherwise gives every corpus page
`(1-d)/N` plus `d/|links|` for linked pages; in all cases every corpus page
has a non-negative entry and the entries sum to `1`. -/
theorem transition_model_correct (c : Corpus α) (page : α) (d : ℚ)
    (hpage : page ∈ c.pages)
    (hclosed : ∀ q ∈ c.pages, c.links q ⊆ c.pages)
    (hd0 : 0 ≤ d) (hd1 : d ≤ 1) :
    ∃ t, transition_model c page d = some t ∧
      (c.links page = ∅ → ∀ p ∈ c.pages, t p = 1 / (c.pages.card : ℚ)) ∧
      (c.links page ≠ ∅ → ∀ p ∈ c.pages,
        t p = (1 - d) / (c.pages.card : ℚ) +
          if p ∈ c.links page then d / ((c.links page).card : ℚ) else 0) ∧
      (∀ p ∈ c.pages, 0 ≤ t p) ∧
      (∑ p ∈ c.pages, t p = 1) := by
  have hNpos : 0 < c.pages.card := Finset.card_pos.mpr ⟨page, hpage⟩
  have hNQ : (0 : ℚ) < (c.pages.card : ℚ) := by exact_mod_cast hNpos
  by_cases hempty : c.links page = ∅
  · refine ⟨_, transition_model_of_empty c page d hpage hempty, fun _ _ _ => rfl,
      fun h => absurd hempty h, ?_, ?_⟩
    · intro p _
      positivity
    · rw [Finset.sum_const, nsmul_eq_mul, mul_one_div, div_self hNQ.ne']
  · have hsub : c.links page ⊆ c.pages := hclosed page hpage
    have hLpos : 0 < (c.links page).card :=
      Finset.card_pos.mpr (Finset.nonempty_iff_ne_empty.mpr hempty)
    have hLQ : (0 : ℚ) < ((c.links page).card : ℚ) := by exact_mod_cast hLpos
    refine ⟨_, transition_model_of_nonempty c page d hpage hempty hsub,
      fun h => absurd h hempty, fun _ p _ => rfl, ?_, ?_⟩
    · intro p _
      have h1 : 0 ≤ (1 - d) / (c.pages.card : ℚ) := by
        apply div_nonneg (by linarith) hNQ.le
      have h2 : 0 ≤ if p ∈ c.links page then d / ((c.links page).card : ℚ) else 0 := by
        split
        · exact div_nonneg hd0 hLQ.le
        · exact le_rfl
      linarith
    · rw [Finset.sum_add_distrib, Finset.sum_const, nsmul_eq_mul,
        Finset.sum_ite_mem, Finset.inter_eq_right.mpr hsub, Finset.sum_const,
        nsmul_eq_mul]
      field_simp

/-- Concrete corpus with a single dangling page. -/
def cOne : Corpus ℕ := ⟨{0}, fun _ => ∅⟩

/-- Concrete corpus of two mutually unlinked (dangling) pages. -/
def cTwo : Corpus ℕ := ⟨{0, 1}, fun _ => ∅⟩

/-- The "single hub" corpus `{A: {B, C}, B: {}, C: {}}` with `A, B, C`
encoded as `0, 1, 2`. -/
def cHub : Corpus ℕ := ⟨{0, 1, 2}, fun p => if p = 0 then {1, 2} else ∅⟩

/-- C3 counterexample: calling `transition_model` on a page that is not a key
of the graph does fail (the lookup `corpus[page]` raises `KeyError`,
modelled as `none`), refuting the claim that no error is raised. -/
theorem transition_model_missing_page_counterexample :
    transition_model cOne 1 (85 / 100) = none := by
  simp [transition_model, cOne]

/-- C3 (amended): for every graph and every page not among its keys,
`transition_model` fails with a lookup error (`corpus[page]` raises
`KeyError`), modelled as returning `none`. -/
theorem transition_model_missing_page (c : Corpus α) (page : α) (d : ℚ)
    (hpage : page ∉ c.pages) : transition_model c page d = none := by
  simp [transition_model, hpage]

/-- Witness for C3 (amended) at a concrete input. -/
theorem transition_model_missing_page_witness :
    transition_model cOne 1 (85 / 100) = none :=
  transition_model_missing_page cOne 1 (85 / 100) (by decide)

/-- One synchronous relaxation pass of `iterate_pagerank`: the inner
`for page in corpus` loop computing `new_rank` from the snapshot `pagerank`.
`total` accumulates, over every `other_page`, the term
`pagerank[other_page] / (len(corpus[other_page]) if corpus[other_page] else N)`
whenever `page in corpus[other_page] or not corpus[other_page]`. -/
def iterStep (c : Corpus α) (damping_factor : ℚ) (pagerank : α → ℚ) :
    α → ℚ := fun page =>
  (1 - damping_factor) / (c.pages.card : ℚ) +
    damping_factor * ∑ q ∈ c.pages,
      (if page ∈ c.links q ∨ c.links q = ∅ then
        pagerank q /
          (if c.links q = ∅ then (c.pages.card : ℚ) else ((c.links q).card : ℚ))
      else 0)

/-- The convergence test of `iterate_pagerank`: no page's rank moved by more
than `0.001` between the previous and current iteration. -/
def convergedAt (c : Corpus α) (pagerank new_rank : α → ℚ) : Prop :=
  ∀ page ∈ c.pages, |new_rank page - pagerank page| ≤ 1 / 1000

instance (c : Corpus α) (r nr : α → ℚ) : Decidable (convergedAt c r nr) := by
  unfold convergedAt
  infer_instance

/-- The `while not converged` loop of `iterate_pagerank`, indexed by fuel:
each round computes `new_rank`, stops returning it if converged, and otherwise
continues from it (`pagerank = new_rank.copy()`). -/
def iterLoop (c : Corpus α) (damping_factor : ℚ) :
    ℕ → (α → ℚ) → Option (α → ℚ)
  | 0, _ => none
  | fuel + 1, pagerank =>
    let new_rank := iterStep c damping_factor pagerank
    if convergedAt c pagerank new_rank then some new_rank
    else iterLoop c damping_factor fuel new_rank

/-- Embedding of `iterate_pagerank(corpus, damping_factor)`: start from the
uniform distribution `1/N` and relax until convergence.  The Python loop has
no fuel; its termination is the statement that some fuel returns `some`. -/
def iterate_pagerank (c : Corpus α) (damping_factor : ℚ) (fuel : ℕ) :
    Option (α → ℚ) :=
  iterLoop c damping_factor fuel (fun _ => 1 / (c.pages.card : ℚ))

/-- The coefficient with which page `q`'s old rank enters page `p`'s new rank
in one relaxation pass (the column-stochastic matrix of the update). -/
def coef (c : Corpus α) (p q : α) : ℚ :=
  if p ∈ c.links q ∨ c.links q = ∅ then
    (if c.links q = ∅ then (c.pages.card : ℚ) else ((c.links q).card : ℚ))⁻¹
  else 0

lemma coef_nonneg (c : Corpus α) (p q : α) : 0 ≤ coef c p q := by
  unfold coef
  split
  · apply inv_nonneg.mpr
    split <;> positivity
  · exact le_rfl

lemma iterStep_eq_coef (c : Corpus α) (d : ℚ) (r : α → ℚ) (p : α) :
    iterStep c d r p =
      (1 - d) / (c.pages.card : ℚ) + d * ∑ q ∈ c.pages, coef c p q * r q := by
  unfold iterStep coef
  congr 1
  congr 1
  apply Finset.sum_congr rfl
  intro q _
  split
  · rw [div_eq_mul_inv, mul_comm]
  · rw [zero_mul]

lemma coef_colsum (c : Corpus α) (q : α) (hN : 0 < c.pages.card)
    (hsub : c.links q ⊆ c.pages) :
    ∑ p ∈ c.pages, coef c p q = 1 := by
  have hNQ : (0 : ℚ) < (c.pages.card : ℚ) := by exact_mod_cast hN
  by_cases hempty : c.links q = ∅
  · have h : ∀ p ∈ c.pages, coef c p q = ((c.pages.card : ℚ))⁻¹ := by
      intro p _
      simp [coef, hempty]
    rw [Finset.sum_congr rfl h, Finset.sum_const, nsmul_eq_mul,
      mul_inv_cancel₀ hNQ.ne']
  · have hLpos : 0 < (c.links q).card :=
      Finset.card_pos.mpr (Finset.nonempty_iff_ne_empty.mpr hempty)
    have hLQ : (0 : ℚ) < ((c.links q).card : ℚ) := by exact_mod_cast hLpos
    have h : ∀ p ∈ c.pages,
        coef c p q = if p ∈ c.links q then ((c.links q).card : ℚ)⁻¹ else 0 := by
      intro p _
      simp [coef, hempty]
    rw [Finset.sum_congr rfl h, Finset.sum_ite_mem,
      Finset.inter_eq_right.mpr hsub, Finset.sum_const, nsmul_eq_mul,
      mul_inv_cancel₀ hLQ.ne']

lemma iterStep_sub (c : Corpus α) (d : ℚ) (r r' : α → ℚ) (p : α) :
    iterStep c d r p - iterStep c d r' p =
      d * ∑ q ∈ c.pages, coef c p q * (r q - r' q) := by
  rw [iterStep_eq_coef, iterStep_eq_coef]
  have h : ∑ q ∈ c.pages, coef c p q * (r q - r' q)
      = (∑ q ∈ c.pages, coef c p q * r q) -
          ∑ q ∈ c.pages, coef c p q * r' q := by
    rw [← Finset.sum_sub_distrib]
    exact Finset.sum_congr rfl fun q _ => by ring
  rw [h]
  ring

/-- The `L¹` distance between two rank mappings over the corpus pages. -/
def dist1 (c : Corpus α) (r r' : α → ℚ) : ℚ :=
  ∑ q ∈ c.pages, |r q - r' q|

lemma dist1_nonneg (c : Corpus α) (r r' : α → ℚ) : 0 ≤ dist1 c r r' :=
  Finset.sum_nonneg fun q _ => abs_nonneg _

lemma iterStep_contract (c : Corpus α) (d : ℚ)
    (hclosed : ∀ q ∈ c.pages, c.links q ⊆ c.pages)
    (hN : 0 < c.pages.card) (hd0 : 0 ≤ d) (r r' : α → ℚ) :
    dist1 c (iterStep c d r) (iterStep c d r') ≤ d * dist1 c r r' := by
  have h1 : ∀ p ∈ c.pages, |iterStep c d r p - iterStep c d r' p|
      ≤ d * ∑ q ∈ c.pages, coef c p q * |r q - r' q| := by
    intro p _
    rw [iterStep_sub, abs_mul, abs_of_nonneg hd0]
    apply mul_le_mul_of_nonneg_left _ hd0
    calc |∑ q ∈ c.pages, coef c p q * (r q - r' q)|
        ≤ ∑ q ∈ c.pages, |coef c p q * (r q - r' q)| :=
          Finset.abs_sum_le_sum_abs _ _
      _ = ∑ q ∈ c.pages, coef c p q * |r q - r' q| :=
          Finset.sum_congr rfl fun q _ => by
            rw [abs_mul, abs_of_nonneg (coef_nonneg c p q)]
  calc dist1 c (iterStep c d r) (iterStep c d r')
      ≤ ∑ p ∈ c.pages, d * ∑ q ∈ c.pages, coef c p q * |r q - r' q| :=
        Finset.sum_le_sum h1
    _ = d * ∑ p ∈ c.pages, ∑ q ∈ c.pages, coef c p q * |r q - r' q| := by
        rw [Finset.mul_sum]
    _ = d * ∑ q ∈ c.pages, ∑ p ∈ c.pages, coef c p q * |r q - r' q| := by
        rw [Finset.sum_comm]
    _ = d * dist1 c r r' := by
        unfold dist1
        congr 1
        apply Finset.sum_congr rfl
        intro q hq
        rw [← Finset.sum_mul, coef_colsum c q hN (hclosed q hq), one_mul]

lemma dist1_iterate (c : Corpus α) (d : ℚ)
    (hclosed : ∀ q ∈ c.pages, c.links q ⊆ c.pages)
    (hN : 0 < c.pages.card) (hd0 : 0 ≤ d) (r : α → ℚ) (k : ℕ) :
    dist1 c ((iterStep c d)^[k + 1] r) ((iterStep c d)^[k] r)
      ≤ d ^ k * dist1 c (iterStep c d r) r := by
  induction k with
  | zero =>
    simp
  | succ k ih =>
    have key : dist1 c ((iterStep c d)^[k + 1 + 1] r) ((iterStep c d)^[k + 1] r)
        ≤ d * dist1 c ((iterStep c d)^[k + 1] r) ((iterStep c d)^[k] r) := by
      rw [Function.iterate_succ_apply' (iterStep c d) (k + 1) r,
        Function.iterate_succ_apply' (iterStep c d) k r]
      exact iterStep_contract c d hclosed hN hd0 _ _
    calc dist1 c ((iterStep c d)^[k + 1 + 1] r) ((iterStep c d)^[k + 1] r)
        ≤ d * dist1 c ((iterStep c d)^[k + 1] r) ((iterStep c d)^[k] r) := key
      _ ≤ d * (d ^ k * dist1 c (iterStep c d r) r) :=
          mul_le_mul_of_nonneg_left ih hd0
      _ = d ^ (k + 1) * dist1 c (iterStep c d r) r := by ring

lemma exists_converged (c : Corpus α) (d : ℚ)
    (hclosed : ∀ q ∈ c.pages, c.links q ⊆ c.pages)
    (hN : 0 < c.pages.card) (hd0 : 0 ≤ d) (hd1 : d < 1) (r : α → ℚ) :
    ∃ k, convergedAt c ((iterStep c d)^[k] r)
      (iterStep c d ((iterStep c d)^[k] r)) := by
  obtain ⟨k, hk⟩ : ∃ k, d ^ k * dist1 c (iterStep c d r) r ≤ 1 / 1000 := by
    by_cases hsmall : dist1 c (iterStep c d r) r ≤ 1 / 1000
    · exact ⟨0, by simpa using hsmall⟩
    · push_neg at hsmall
      have hD0pos : 0 < dist1 c (iterStep c d r) r :=
        lt_trans (by norm_num) hsmall
      obtain ⟨k, hk⟩ := exists_pow_lt_of_lt_one
        (div_pos (by norm_num : (0 : ℚ) < 1 / 1000) hD0pos) hd1
      refine ⟨k, ?_⟩
      have h2 := mul_lt_mul_of_pos_right hk hD0pos
      rw [div_mul_cancel₀ _ hD0pos.ne'] at h2
      exact h2.le
  refine ⟨k, ?_⟩
  intro p hp
  have hle : |iterStep c d ((iterStep c d)^[k] r) p - (iterStep c d)^[k] r p|
      ≤ dist1 c ((iterStep c d)^[k + 1] r) ((iterStep c d)^[k] r) := by
    rw [Function.iterate_succ_apply']
    exact Finset.single_le_sum (f := fun q =>
      |iterStep c d ((iterStep c d)^[k] r) q - (iterStep c d)^[k] r q|)
      (fun q _ => abs_nonneg _) hp
  exact hle.trans ((dist1_iterate c d hclosed hN hd0 r k).trans hk)

lemma iterLoop_isSome_of_converged (c : Corpus α) (d : ℚ) (k : ℕ) :
    ∀ r : α → ℚ,
      convergedAt c ((iterStep c d)^[k] r)
        (iterStep c d ((iterStep c d)^[k] r)) →
      ∃ out, iterLoop c d (k + 1) r = some out := by
  induction k with
  | zero =>
    intro r h
    simp only [Function.iterate_zero, id_eq] at h
    exact ⟨iterStep c d r, by simp [iterLoop, h]⟩
  | succ k ih =>
    intro r h
    rw [Function.iterate_succ_apply] at h
    by_cases hc : convergedAt c r (iterStep c d r)
    · exact ⟨iterStep c d r, by simp [iterLoop, hc]⟩
    · obtain ⟨out, hout⟩ := ih (iterStep c d r) h
      refine ⟨out, ?_⟩
      have hstep : iterLoop c d (k + 1 + 1) r =
          iterLoop c d (k + 1) (iterStep c d r) := by
        rw [iterLoop]
        exact if_neg hc
      rw [hstep]
      exact hout

/-- C2: for every corpus graph with at least one page and every damping
factor (in `[0,1]`, per the spec's definition of damping) strictly below `1`,
the relaxation loop of `iterate_pagerank` terminates after finitely many
iterations: some finite fuel suffices for the convergence test to pass. -/
theorem iterate_pagerank_terminates (c : Corpus α) (d : ℚ)
    (hN : 0 < c.pages.card)
    (hclosed : ∀ q ∈ c.pages, c.links q ⊆ c.pages)
    (hd0 : 0 ≤ d) (hd1 : d < 1) :
    ∃ fuel r, iterate_pagerank c d fuel = some r := by
  obtain ⟨k, hk⟩ := exists_converged c d hclosed hN hd0 hd1
    (fun _ => 1 / (c.pages.card : ℚ))
  obtain ⟨out, hout⟩ := iterLoop_isSome_of_converged c d k _ hk
  exact ⟨k + 1, out, hout⟩

/-- Witness for C2 on a concrete one-page corpus. -/
theorem iterate_pagerank_terminates_witness :
    ∃ fuel r, iterate_pagerank cOne (1 / 2) fuel = some r :=
  iterate_pagerank_terminates cOne (1 / 2) (by decide) (by decide)
    (by norm_num) (by norm_num)

lemma iterStep_sum (c : Corpus α) (d : ℚ) (hN : 0 < c.pages.card)
    (hclosed : ∀ q ∈ c.pages, c.links q ⊆ c.pages) (r : α → ℚ) :
    ∑ p ∈ c.pages, iterStep c d r p = (1 - d) + d * ∑ q ∈ c.pages, r q := by
  have hNQ : (0 : ℚ) < (c.pages.card : ℚ) := by exact_mod_cast hN
  have h : ∀ p ∈ c.pages, iterStep c d r p
      = (1 - d) / (c.pages.card : ℚ) + d * ∑ q ∈ c.pages, coef c p q * r q :=
    fun p _ => iterStep_eq_coef c d r p
  rw [Finset.sum_congr rfl h, Finset.sum_add_distrib, Finset.sum_const,
    nsmul_eq_mul, ← Finset.mul_sum, Finset.sum_comm]
  have h2 : ∀ q ∈ c.pages, ∑ p ∈ c.pages, coef c p q * r q = r q := by
    intro q hq
    rw [← Finset.sum_mul, coef_colsum c q hN (hclosed q hq), one_mul]
  rw [Finset.sum_congr rfl h2, mul_div_cancel₀ _ hNQ.ne']

lemma iterStep_nonneg (c : Corpus α) (d : ℚ) (hd0 : 0 ≤ d) (hd1 : d ≤ 1)
    (r : α → ℚ) (hr : ∀ q ∈ c.pages, 0 ≤ r q) (p : α) :
    0 ≤ iterStep c d r p := by
  unfold iterStep
  have h1 : 0 ≤ (1 - d) / (c.pages.card : ℚ) :=
    div_nonneg (by linarith) (by positivity)
  have h2 : 0 ≤ ∑ q ∈ c.pages,
      (if p ∈ c.links q ∨ c.links q = ∅ then
        r q / (if c.links q = ∅ then (c.pages.card : ℚ)
          else ((c.links q).card : ℚ))
      else 0) := by
    apply Finset.sum_nonneg
    intro q hq
    split
    · apply div_nonneg (hr q hq)
      split <;> positivity
    · exact le_rfl
  exact add_nonneg h1 (mul_nonneg hd0 h2)

lemma iterLoop_valid (c : Corpus α) (d : ℚ) (hN : 0 < c.pages.card)
    (hclosed : ∀ q ∈ c.pages, c.links q ⊆ c.pages)
    (hd0 : 0 ≤ d) (hd1 : d ≤ 1) :
    ∀ (fuel : ℕ) (r : α → ℚ), (∀ q ∈ c.pages, 0 ≤ r q) →
      (∑ q ∈ c.pages, r q = 1) →
      ∀ out, iterLoop c d fuel r = some out →
        (∀ p ∈ c.pages, 0 ≤ out p) ∧ ∑ p ∈ c.pages, out p = 1 := by
  intro fuel
  induction fuel with
  | zero =>
    intro r _ _ out h
    simp [iterLoop] at h
  | succ fuel ih =>
    intro r hr hsum out h
    have hnn : ∀ p ∈ c.pages, 0 ≤ iterStep c d r p :=
      fun p _ => iterStep_nonneg c d hd0 hd1 r hr p
    have hs : ∑ p ∈ c.pages, iterStep c d r p = 1 := by
      rw [iterStep_sum c d hN hclosed r, hsum]
      ring
    simp only [iterLoop] at h
    by_cases hc : convergedAt c r (iterStep c d r)
    · rw [if_pos hc] at h
      obtain rfl : iterStep c d r = out := Option.some_inj.mp h
      exact ⟨hnn, hs⟩
    · rw [if_neg hc] at h
      exact ih (iterStep c d r) hnn hs out h

/-- C4: for a corpus graph with at least one page and damping in `(0,1)`,
any distribution returned by `iterate_pagerank` is non-negative on every
corpus page and its entries over the corpus sum to exactly `1` (each
synchronous pass preserves total mass, so the invariant holds at
termination). -/
theorem iterate_pagerank_valid (c : Corpus α) (d : ℚ)
    (hN : 0 < c.pages.card)
    (hclosed : ∀ q ∈ c.pages, c.links q ⊆ c.pages)
    (hd0 : 0 < d) (hd1 : d < 1) (fuel : ℕ) (r : α → ℚ)
    (h : iterate_pagerank c d fuel = some r) :
    (∀ p ∈ c.pages, 0 ≤ r p) ∧ ∑ p ∈ c.pages, r p = 1 := by
  have hNQ : (0 : ℚ) < (c.pages.card : ℚ) := by exact_mod_cast hN
  apply iterLoop_valid c d hN hclosed hd0.le hd1.le fuel
    (fun _ => 1 / (c.pages.card : ℚ)) (fun q _ => by positivity) ?_ r h
  rw [Finset.sum_const, nsmul_eq_mul, mul_one_div, div_self hNQ.ne']

lemma dangling_step_eq (c : Corpus α) (d : ℚ) (hN : 0 < c.pages.card)
    (hdang : ∀ p ∈ c.pages, c.links p = ∅) (p : α) :
    iterStep c d (fun _ => 1 / (c.pages.card : ℚ)) p
      = 1 / (c.pages.card : ℚ) := by
  have hNQ : (0 : ℚ) < (c.pages.card : ℚ) := by exact_mod_cast hN
  unfold iterStep
  have h : ∀ q ∈ c.pages,
      (if p ∈ c.links q ∨ c.links q = ∅ then
        (1 / (c.pages.card : ℚ)) /
          (if c.links q = ∅ then (c.pages.card : ℚ)
            else ((c.links q).card : ℚ))
      else 0) = 1 / (c.pages.card : ℚ) / (c.pages.card : ℚ) := by
    intro q hq
    simp [hdang q hq]
  rw [Finset.sum_congr rfl h, Finset.sum_const, nsmul_eq_mul]
  field_simp

lemma dangling_iterate_one (c : Corpus α) (d : ℚ) (hN : 0 < c.pages.card)
    (hdang : ∀ p ∈ c.pages, c.links p = ∅) :
    iterate_pagerank c d 1 =
      some (iterStep c d (fun _ => 1 / (c.pages.card : ℚ))) := by
  have hconv : convergedAt c (fun _ => 1 / (c.pages.card : ℚ))
      (iterStep c d (fun _ => 1 / (c.pages.card : ℚ))) := by
    intro p hp
    rw [dangling_step_eq c d hN hdang p]
    simp
  show iterLoop c d 1 (fun _ => 1 / (c.pages.card : ℚ)) = _
  simp only [iterLoop, if_pos hconv]

/-- Witness for C4 on a concrete one-page corpus, whose loop converges with
fuel `1`. -/
theorem iterate_pagerank_valid_witness :
    (∀ p ∈ cOne.pages,
        0 ≤ iterStep cOne (1 / 2) (fun _ => 1 / (cOne.pages.card : ℚ)) p) ∧
      ∑ p ∈ cOne.pages,
        iterStep cOne (1 / 2) (fun _ => 1 / (cOne.pages.card : ℚ)) p = 1 :=
  iterate_pagerank_valid cOne (1 / 2) (by decide) (by decide) (by norm_num)
    (by norm_num) 1 _ (dangling_iterate_one cOne (1 / 2) (by decide) (by decide))

/-- C6: a corpus of `k ≥ 1` mutually unlinked (all dangling) pages converges
immediately — the first relaxation pass already meets the convergence test,
so fuel `1` suffices — and `iterate_pagerank` returns exactly `1/k` for every
page, for any damping factor in `[0,1]`. -/
theorem iterate_pagerank_dangling (c : Corpus α) (d : ℚ)
    (hN : 0 < c.pages.card)
    (hdang : ∀ p ∈ c.pages, c.links p = ∅)
    (hd0 : 0 ≤ d) (hd1 : d ≤ 1) :
    ∃ r, iterate_pagerank c d 1 = some r ∧
      ∀ p ∈ c.pages, r p = 1 / (c.pages.card : ℚ) :=
  ⟨_, dangling_iterate_one c d hN hdang,
    fun p _ => dangling_step_eq c d hN hdang p⟩

/-- Witness for C6 on a concrete two-page dangling corpus. -/
theorem iterate_pagerank_dangling_witness :
    ∃ r, iterate_pagerank cTwo (1 / 3) 1 = some r ∧
      ∀ p ∈ cTwo.pages, r p = 1 / (cTwo.pages.card : ℚ) :=
  iterate_pagerank_dangling cTwo (1 / 3) (by decide) (by decide)
    (by norm_num) (by norm_num)

lemma iterLoop_some_eq_step (c : Corpus α) (d : ℚ) :
    ∀ (fuel : ℕ) (r out : α → ℚ), iterLoop c d fuel r = some out →
      ∃ r0, out = iterStep c d r0 := by
  intro fuel
  induction fuel with
  | zero =>
    intro r out h
    simp [iterLoop] at h
  | succ fuel ih =>
    intro r out h
    simp only [iterLoop] at h
    by_cases hc : convergedAt c r (iterStep c d r)
    · rw [if_pos hc] at h
      exact ⟨r, (Option.some_inj.mp h).symm⟩
    · rw [if_neg hc] at h
      exact ih _ _ h

lemma cHub_sum_expand (f : ℕ → ℚ) :
    ∑ q ∈ cHub.pages, f q = f 0 + f 1 + f 2 := by
  show ∑ q ∈ ({0, 1, 2} : Finset ℕ), f q = f 0 + f 1 + f 2
  rw [Finset.sum_insert (by decide), Finset.sum_insert (by decide),
    Finset.sum_singleton]
  ring

lemma cHub_card : (cHub.pages.card : ℚ) = 3 := by
  have h : cHub.pages.card = 3 := by decide
  rw [h]
  norm_num

lemma cHub_step (d : ℚ) (r : ℕ → ℚ) (p : ℕ) :
    iterStep cHub d r p =
      (1 - d) / 3 +
        d * ((if p ∈ ({1, 2} : Finset ℕ) then r 0 / 2 else 0)
          + (r 1 / 3 + r 2 / 3)) := by
  unfold iterStep
  rw [cHub_sum_expand, cHub_card]
  have h0 : cHub.links 0 = ({1, 2} : Finset ℕ) := by decide
  have h1 : cHub.links 1 = (∅ : Finset ℕ) := by decide
  have h2 : cHub.links 2 = (∅ : Finset ℕ) := by decide
  rw [h0, h1, h2]
  have hne : ({1, 2} : Finset ℕ) ≠ ∅ := by decide
  have hcard : ((({1, 2} : Finset ℕ)).card : ℚ) = 2 := by
    have h : ({1, 2} : Finset ℕ).card = 2 := by decide
    rw [h]
    norm_num
  simp only [hne, hcard, if_false, eq_self_iff_true, if_true, or_false,
    or_true, ite_true, ite_false]
  ring

lemma cHub_step_symm (d : ℚ) (r : ℕ → ℚ) :
    iterStep cHub d r 1 = iterStep cHub d r 2 := by
  rw [cHub_step, cHub_step]
  norm_num

/-- C7: for the corpus `{A: {B, C}, B: {}, C: {}}` and any damping in
`(0,1)`, any distribution returned by `iterate_pagerank` assigns equal ranks
to the symmetric dangling pages B and C (every relaxation pass gives B and C
identical new ranks). -/
theorem iterate_pagerank_hub_symm (d : ℚ) (hd0 : 0 < d) (hd1 : d < 1)
    (fuel : ℕ) (r : ℕ → ℚ) (h : iterate_pagerank cHub d fuel = some r) :
    r 1 = r 2 := by
  obtain ⟨r0, hr0⟩ := iterLoop_some_eq_step cHub d fuel _ r h
  rw [hr0]
  exact cHub_step_symm d r0

lemma cHub_iterate_one :
    iterate_pagerank cHub (1 / 1000) 1 =
      some (iterStep cHub (1 / 1000) (fun _ => 1 / (cHub.pages.card : ℚ))) := by
  have hconv : convergedAt cHub (fun _ => 1 / (cHub.pages.card : ℚ))
      (iterStep cHub (1 / 1000) (fun _ => 1 / (cHub.pages.card : ℚ))) := by
    intro p hp
    rw [cHub_step, cHub_card]
    fin_cases hp <;>
      rw [abs_le] <;> constructor <;> norm_num [Finset.mem_insert]
  show iterLoop cHub (1 / 1000) 1 (fun _ => 1 / (cHub.pages.card : ℚ)) = _
  simp only [iterLoop, if_pos hconv]

/-- Witness for C7: the concrete hub corpus at damping `1/1000`, where the
loop converges with fuel `1`. -/
theorem iterate_pagerank_hub_symm_witness :
    iterStep cHub (1 / 1000) (fun _ => 1 / (cHub.pages.card : ℚ)) 1 =
      iterStep cHub (1 / 1000) (fun _ => 1 / (cHub.pages.card : ℚ)) 2 :=
  iterate_pagerank_hub_symm (1 / 1000) (by norm_num) (by norm_num) 1 _
    cHub_iterate_one

/-- The random walk of `sample_pagerank`: the `for _ in range(1, n)` loop.
Each round computes `transition_model(corpus, page, damping_factor)` and
draws the next page from it; `choose` models
`random.choices(list(model.keys()), weights=list(model.values()), k=1)[0]`,
whose population is the corpus key list.  The returned list collects the
pages whose counters are incremented; a `KeyError` from `transition_model`
propagates as `none`. -/
def sample_walk (c : Corpus α) (damping_factor : ℚ)
    (choose : (α → ℚ) → α) : ℕ → α → Option (List α)
  | 0, _ => some []
  | k + 1, page =>
    (transition_model c page damping_factor).bind fun model =>
      let next := choose model
      (sample_walk c damping_factor choose k next).map (next :: ·)

/-- Embedding of `sample_pagerank(corpus, damping_factor, n)`.  The starting
page (drawn by `random.choice(list(corpus.keys()))`) and the weighted draw
are explicit parameters.  `pagerank[page] += 1` on a page that is not a dict
key would raise `KeyError`, hence the membership guard on the start page.
Each page's final estimate is its visit count divided by `n`. -/
def sample_pagerank (c : Corpus α) (damping_factor : ℚ) (n : ℕ)
    (start : α) (choose : (α → ℚ) → α) : Option (α → ℚ) :=
  if start ∈ c.pages then
    (sample_walk c damping_factor choose (n - 1) start).map fun rest =>
      fun p => (((start :: rest).count p : ℚ)) / (n : ℚ)
  else none

lemma sample_walk_some (c : Corpus α) (d : ℚ) (choose : (α → ℚ) → α)
    (hclosed : ∀ q ∈ c.pages, c.links q ⊆ c.pages)
    (hchoose : ∀ m, choose m ∈ c.pages) :
    ∀ (k : ℕ) (page : α), page ∈ c.pages →
      ∃ l, sample_walk c d choose k page = some l ∧ l.length = k ∧
        ∀ x ∈ l, x ∈ c.pages := by
  intro k
  induction k with
  | zero =>
    intro page _
    exact ⟨[], rfl, rfl, by simp⟩
  | succ k ih =>
    intro page hpage
    have hmodel : ∃ t, transition_model c page d = some t := by
      by_cases hempty : c.links page = ∅
      · exact ⟨_, transition_model_of_empty c page d hpage hempty⟩
      · exact ⟨_, transition_model_of_nonempty c page d hpage hempty
          (hclosed page hpage)⟩
    obtain ⟨t, ht⟩ := hmodel
    obtain ⟨l, hl, hlen, hmem⟩ := ih (choose t) (hchoose t)
    refine ⟨choose t :: l, ?_, by simp [hlen], ?_⟩
    · simp only [sample_walk, ht, Option.some_bind, hl, Option.map_some']
    · intro x hx
      rcases List.mem_cons.mp hx with h | h
      · rw [h]
        exact hchoose t
      · exact hmem x h

lemma count_sum_of_mem (s : Finset α) :
    ∀ l : List α, (∀ x ∈ l, x ∈ s) → ∑ p ∈ s, l.count p = l.length := by
  intro l
  induction l with
  | nil =>
    intro _
    simp
  | cons a t ih =>
    intro hmem
    have ha : a ∈ s := hmem a (List.mem_cons_self a t)
    have ht : ∀ x ∈ t, x ∈ s := fun x hx => hmem x (List.mem_cons_of_mem a hx)
    have hcount : ∀ p ∈ s, (a :: t).count p
        = t.count p + if a = p then 1 else 0 := by
      intro p _
      rw [List.count_cons]
      congr 1
      by_cases h : a = p
      · simp [h]
      · simp [h]
    rw [Finset.sum_congr rfl hcount, Finset.sum_add_distrib, ih ht,
      Finset.sum_ite_eq s a (fun _ => 1), if_pos ha, List.length_cons]

/-- C5: for a corpus with at least one page, damping in `[0,1]`, and a
positive sample count `n`, with the random start drawn from the corpus keys
and the weighted draw returning corpus keys (as `random.choices` over the
model's keys does), `sample_pagerank` returns a distribution in which each
page's entry is its visit count divided by `n`, the walk makes exactly `n`
visits (one start plus `n - 1` transitions), every entry is non-negative,
and the entries over the corpus sum to `1`. -/
theorem sample_pagerank_valid (c : Corpus α) (d : ℚ) (n : ℕ) (start : α)
    (choose : (α → ℚ) → α)
    (hclosed : ∀ q ∈ c.pages, c.links q ⊆ c.pages)
    (hd0 : 0 ≤ d) (hd1 : d ≤ 1) (hn : 0 < n)
    (hstart : start ∈ c.pages) (hchoose : ∀ m, choose m ∈ c.pages) :
    ∃ r, sample_pagerank c d n start choose = some r ∧
      ∃ visits : List α, visits.length = n ∧
        (∀ p, r p = ((visits.count p : ℚ)) / (n : ℚ)) ∧
        (∀ p, 0 ≤ r p) ∧
        ∑ p ∈ c.pages, r p = 1 := by
  obtain ⟨l, hl, hlen, hmem⟩ :=
    sample_walk_some c d choose hclosed hchoose (n - 1) start hstart
  have hnQ : (0 : ℚ) < (n : ℚ) := by exact_mod_cast hn
  refine ⟨_, ?_, start :: l, ?_, fun p => rfl, ?_, ?_⟩
  · rw [sample_pagerank, if_pos hstart, hl, Option.map_some']
  · rw [List.length_cons, hlen]
    omega
  · intro p
    positivity
  · have hall : ∀ x ∈ start :: l, x ∈ c.pages := by
      intro x hx
      rcases List.mem_cons.mp hx with h | h
      · rw [h]
        exact hstart
      · exact hmem x h
    rw [← Finset.sum_div]
    rw [show ∑ p ∈ c.pages, ((start :: l).count p : ℚ)
        = ((∑ p ∈ c.pages, (start :: l).count p : ℕ) : ℚ) by push_cast; rfl]
    rw [count_sum_of_mem c.pages (start :: l) hall, List.length_cons, hlen]
    rw [show n - 1 + 1 = n from by omega]
    exact div_self hnQ.ne'

/-- Witness for C5 on a concrete one-page corpus with `n = 3`. -/
theorem sample_pagerank_valid_witness :
    ∃ r, sample_pagerank cOne (1 / 2) 3 0 (fun _ => 0) = some r ∧
      ∃ visits : List ℕ, visits.length = 3 ∧
        (∀ p, r p = ((visits.count p : ℚ)) / (3 : ℕ)) ∧
        (∀ p, 0 ≤ r p) ∧
        ∑ p ∈ cOne.pages, r p = 1 :=
  sample_pagerank_valid cOne (1 / 2) 3 0 (fun _ => 0) (by decide)
    (by norm_num) (by norm_num) (by norm_num) (by decide)
    (by intro m; show (0 : ℕ) ∈ cOne.pages; decide)

/-- `filename.endswith(".html")` from the source, written on the character
list underlying the string so that it is computable by the kernel. -/
def endsWithHtml (filename : String) : Bool :=
  ".html".data.isSuffixOf filename.data

/-- The first loop of `crawl(directory)`: for each `.html` file in the
`os.listdir` listing (modelled as (filename, contents) pairs), store
`set(links) - {filename}` where `links = re.findall(..., contents)` is
abstracted as `findall contents`. -/
def crawlRaw (findall : String → List String)
    (directory : List (String × String)) : List (String × Finset String) :=
  (directory.filter (fun fc => endsWithHtml fc.1)).map
    (fun fc => (fc.1, (findall fc.2).toFinset \ {fc.1}))

/-- Embedding of `crawl(directory)`: after the first loop builds `pages`,
the second loop keeps, in each page's link set, only links that are keys of
`pages` ("only include links to other pages in the corpus"). -/
def crawl (findall : String → List String)
    (directory : List (String × String)) : List (String × Finset String) :=
  let pages := crawlRaw findall directory
  pages.map (fun pl =>
    (pl.1, pl.2.filter (fun link => link ∈ pages.map Prod.fst)))

lemma crawl_keys (findall : String → List String)
    (directory : List (String × String)) :
    (crawl findall directory).map Prod.fst
      = (crawlRaw findall directory).map Prod.fst := by
  unfold crawl
  rw [List.map_map]
  rfl

lemma crawl_links_sub_keys (findall : String → List String)
    (directory : List (String × String)) (pl : String × Finset String)
    (hpl : pl ∈ crawl findall directory) :
    ∀ link ∈ pl.2, link ∈ (crawl findall directory).map Prod.fst := by
  intro link hlink
  rw [crawl_keys]
  unfold crawl at hpl
  obtain ⟨raw, _, heq⟩ := List.mem_map.mp hpl
  subst heq
  exact (Finset.mem_filter.mp hlink).2

lemma crawlRaw_keys_html (findall : String → List String)
    (directory : List (String × String)) :
    ∀ key ∈ (crawlRaw findall directory).map Prod.fst,
      endsWithHtml key = true := by
  intro key hkey
  unfold crawlRaw at hkey
  rw [List.map_map] at hkey
  obtain ⟨fc, hfc, heq⟩ := List.mem_map.mp hkey
  have h2 : endsWithHtml fc.1 = true := (List.mem_filter.mp hfc).2
  rw [← heq]
  exact h2

/-- C9: in the graph built by `crawl`, no page's outbound link set contains
the page itself, and every member of every outbound link set is itself a key
of the returned graph. -/
theorem crawl_no_self_and_closed (findall : String → List String)
    (directory : List (String × String)) (pl : String × Finset String)
    (hpl : pl ∈ crawl findall directory) :
    pl.1 ∉ pl.2 ∧
      ∀ link ∈ pl.2, link ∈ (crawl findall directory).map Prod.fst := by
  refine ⟨?_, crawl_links_sub_keys findall directory pl hpl⟩
  unfold crawl at hpl
  obtain ⟨raw, hraw, heq⟩ := List.mem_map.mp hpl
  subst heq
  unfold crawlRaw at hraw
  obtain ⟨fc, _, heq2⟩ := List.mem_map.mp hraw
  intro hmem
  have h2 : raw.1 ∈ raw.2 := (Finset.mem_filter.mp hmem).1
  rw [← heq2] at h2
  exact (Finset.mem_sdiff.mp h2).2 (Finset.mem_singleton_self fc.1)

/-- C10 (implicit): `crawl` admits only files whose name ends in `.html` as
corpus pages — every key of the returned graph has the suffix, and a
directory entry whose name lacks it is neither a key nor (by the closure
filtering) a member of any page's outbound link set. -/
theorem crawl_only_html (findall : String → List String)
    (directory : List (String × String)) (fc : String × String)
    (hfc : fc ∈ directory) (hnot : endsWithHtml fc.1 = false) :
    (∀ key ∈ (crawl findall directory).map Prod.fst,
        endsWithHtml key = true) ∧
      fc.1 ∉ (crawl findall directory).map Prod.fst ∧
      ∀ pl ∈ crawl findall directory, fc.1 ∉ pl.2 := by
  have hkeys : ∀ key ∈ (crawl findall directory).map Prod.fst,
      endsWithHtml key = true := by
    intro key hkey
    rw [crawl_keys] at hkey
    exact crawlRaw_keys_html findall directory key hkey
  have hnk : fc.1 ∉ (crawl findall directory).map Prod.fst := by
    intro hmem
    rw [hkeys fc.1 hmem] at hnot
    exact Bool.noConfusion hnot
  refine ⟨hkeys, hnk, ?_⟩
  intro pl hpl hmem
  exact hnk (crawl_links_sub_keys findall directory pl hpl fc.1 hmem)

/-- A concrete two-file directory: one `.html` page linking to itself, to a
non-corpus `.html` target, and to a non-`.html` file that is also listed. -/
def dirEx : List (String × String) := [("a.html", "x"), ("b.txt", "y")]

/-- A concrete stand-in for the regex extraction on `dirEx`. -/
def findallEx : String → List String :=
  fun _ => ["a.html", "b.txt", "nope.html"]

/-- Witness for C9 on the concrete directory. -/
theorem crawl_no_self_and_closed_witness :
    ("a.html", (∅ : Finset String)).1 ∉ ("a.html", (∅ : Finset String)).2 ∧
      ∀ link ∈ ("a.html", (∅ : Finset String)).2,
        link ∈ (crawl findallEx dirEx).map Prod.fst :=
  crawl_no_self_and_closed findallEx dirEx ("a.html", ∅) (by decide)

/-- Witness for C10 on the concrete directory. -/
theorem crawl_only_html_witness :
    (∀ key ∈ (crawl findallEx dirEx).map Prod.fst,
        endsWithHtml key = true) ∧
      ("b.txt", "y").1 ∉ (crawl findallEx dirEx).map Prod.fst ∧
      ∀ pl ∈ crawl findallEx dirEx, ("b.txt", "y").1 ∉ pl.2 :=
  crawl_only_html findallEx dirEx ("b.txt", "y") (by decide) (by decide)

/-- The observable outcome of running the program: the exit status, the
message `sys.exit` prints on a usage error, and the lines printed to
standard output. -/
structure MainResult where
  exitCode : ℕ
  errMessage : Option String
  stdout : List String

/-- Embedding of `main()`.  `argv` is `sys.argv` (program name included);
`sys.exit("Usage: python pagerank.py corpus")` prints the message and exits
with status `1` before anything else runs.  The ranking phase — crawl, both
estimators and their printing, which involve the file system and the random
module — runs only after the argument check and is abstracted as
`runRanking`, mapping the corpus directory argument `sys.argv[1]` to the
printed lines. -/
def main' (argv : List String) (runRanking : String → List String) :
    MainResult :=
  if argv.length ≠ 2 then
    ⟨1, some "Usage: python pagerank.py corpus", []⟩
  else
    ⟨0, none, runRanking (argv.getD 1 "")⟩

/-- C8: invoked with any number of command-line arguments other than exactly
one positional argument (`len(sys.argv) != 2`), the program exits with
non-zero status after emitting the usage message, with no ranking output. -/
theorem main_usage_error (argv : List String)
    (runRanking : String → List String) (h : argv.length ≠ 2) :
    (main' argv runRanking).exitCode ≠ 0 ∧
      (main' argv runRanking).errMessage
        = some "Usage: python pagerank.py corpus" ∧
      (main' argv runRanking).stdout = [] := by
  unfold main'
  rw [if_pos h]
  exact ⟨one_ne_zero, rfl, rfl⟩

/-- Witness for C8: invoking with no positional argument at all. -/
theorem main_usage_error_witness :
    (main' ["pagerank.py"] (fun _ => [])).exitCode ≠ 0 ∧
      (main' ["pagerank.py"] (fun _ => [])).errMessage
        = some "Usage: python pagerank.py corpus" ∧
      (main' ["pagerank.py"] (fun _ => [])).stdout = [] :=
  main_usage_error ["pagerank.py"] (fun _ => []) (by decide)

/-- Witness for C1 at the hub corpus, page `A`, damping `85/100`. -/
theorem transition_model_correct_witness :
    ∃ t, transition_model cHub 0 (85 / 100) = some t ∧
      (cHub.links 0 = ∅ → ∀ p ∈ cHub.pages, t p = 1 / (cHub.pages.card : ℚ)) ∧
      (cHub.links 0 ≠ ∅ → ∀ p ∈ cHub.pages,
        t p = (1 - 85 / 100) / (cHub.pages.card : ℚ) +
          if p ∈ cHub.links 0 then (85 / 100 : ℚ) / ((cHub.links 0).card : ℚ)
          else 0) ∧
      (∀ p ∈ cHub.pages, 0 ≤ t p) ∧
      (∑ p ∈ cHub.pages, t p = 1) :=
  transition_model_correct cHub 0 (85 / 100) (by decide) (by decide)
    (by norm_num) (by norm_num)
